import Mathlib

/-!
# Verification of `cpu_vector_add` (src/kernel_cpu.cpp)

The repository consists of one exported C function,

     6  void cpu_vector_add(const float *A, const float *B, float *C, int N)
     7  {
     8  #pragma omp parallel for
     9      for (int i = 0; i < N; i++)
    10      {
    11          C[i] = A[i] + B[i];
    12      }
    13  }

This file embeds it in Lean and proves properties of the embedding.

* `float` is IEEE-754 binary32, represented by its 32-bit encoding (`F32`);
  the C operator `+` on `float` is `f32_add` (round to nearest, ties to even).
* `int` is a mathematical integer together with the range `IsInt32`; the
  increment `i++` faults when it would leave that range.
* The three buffers are lists; an access outside a list is a fault
  (`Fault.outOfBounds`), the embedding of C's undefined behaviour.  The buffers
  are three separate lists, i.e. `C` does not overlap `A` or `B`.
* `forLoop` is the `for` statement as written (the sequential meaning of the
  loop, which is also what the compiler produces when the pragma is ignored).
  `cpu_vector_add_parallel` is a parallel execution of the same loop body by a
  team of threads.
-/

namespace VecAdd

/-! ## IEEE-754 binary32 -/

/-- A C `float`: the 32-bit encoding of an IEEE-754 binary32 datum
(bit 31 sign, bits 30..23 biased exponent, bits 22..0 fraction). -/
structure F32 where
  bits : Fin 4294967296
deriving DecidableEq, Repr

/-- The `float` whose encoding is the low 32 bits of `n`. -/
def F32.ofNat (n : Nat) : F32 := ⟨Fin.ofNat n⟩

/-- Sign bit (0 or 1). -/
def F32.sign (x : F32) : Nat := x.bits.val / 2147483648

/-- Biased exponent field (0..255). -/
def F32.expo (x : F32) : Nat := x.bits.val / 8388608 % 256

/-- Fraction field (0..2^23-1). -/
def F32.frac (x : F32) : Nat := x.bits.val % 8388608

/-- The datum is a NaN: exponent field all ones, fraction non-zero. -/
def F32.isNaN (x : F32) : Prop := x.expo = 255 ∧ x.frac ≠ 0

/-- The datum is an infinity: exponent field all ones, fraction zero. -/
def F32.isInf (x : F32) : Prop := x.expo = 255 ∧ x.frac = 0

/-- The datum is finite (zero, subnormal or normal). -/
def F32.isFinite (x : F32) : Prop := x.expo < 255

instance (x : F32) : Decidable x.isNaN := by unfold F32.isNaN; exact inferInstance

instance (x : F32) : Decidable x.isInf := by unfold F32.isInf; exact inferInstance

instance (x : F32) : Decidable x.isFinite := by unfold F32.isFinite; exact inferInstance

/-- Positive infinity, encoding 0x7F800000. -/
def F32.posInf : F32 := F32.ofNat 2139095040

/-- Negative infinity, encoding 0xFF800000. -/
def F32.negInf : F32 := F32.ofNat 4286578688

/-- Magnitude of a finite datum as an integer multiple of 2^-149 (the
smallest subnormal): `frac` for a subnormal, `(2^23 + frac) * 2^(expo-1)`
for a normal number. -/
def F32.mag (x : F32) : Nat :=
  if x.expo = 0 then x.frac else (8388608 + x.frac) * 2 ^ (x.expo - 1)

/-- Exact value of a finite datum in units of 2^-149. -/
def F32.toInt (x : F32) : Int :=
  if x.sign = 1 then -(x.mag : Int) else (x.mag : Int)

/-- Number of binary digits of `n`, by repeated halving. -/
def bitLengthAux : Nat → Nat → Nat
  | 0, _ => 0
  | fuel + 1, n => if n = 0 then 0 else bitLengthAux fuel (n / 2) + 1

/-- Number of binary digits of `n` (0 for 0). -/
def bitLength (n : Nat) : Nat := bitLengthAux n n

/-- Encoding (without the sign bit) of the binary32 datum nearest to
`m * 2^-149`, ties to even.  With `sh` the number of low bits that do not fit
in the 24-bit significand, the significand is `m / 2^sh` rounded by the
discarded bits `m % 2^sh`; `sh * 2^23 + significand` is the encoding, because
the hidden bit of the significand adds one to the exponent field and a carry
out of the significand moves on to the next exponent.  An encoding at or above
0x7F800000 has overflowed and is infinity. -/
def roundNearestEven (m : Nat) : Nat :=
  let sh := bitLength m - 24
  let q := m / 2 ^ sh
  let r := m % 2 ^ sh
  let up : Nat := if 2 ^ sh < 2 * r ∨ (2 * r = 2 ^ sh ∧ q % 2 = 1) then 1 else 0
  let enc := sh * 8388608 + q + up
  if 2139095040 ≤ enc then 2139095040 else enc

/-- The quiet NaN made from a NaN operand: same sign, quiet bit (bit 22) set,
rest of the payload kept. -/
def F32.quiet (x : F32) : F32 :=
  F32.ofNat (x.sign * 2147483648 + 2139095040 + 4194304 + x.frac % 4194304)

/-- The NaN produced by an invalid operation (0xFFC00000, the x86-64 SSE
default NaN). -/
def F32.defaultNaN : F32 := F32.ofNat 4290772992

/-- The C expression `a + b` on `float`: IEEE-754 binary32 addition, round to
nearest ties to even.  A NaN operand gives a quiet NaN; infinities of opposite
sign give the default NaN; otherwise an infinite operand is the result; two
finite operands are added exactly and rounded once.  An exact zero sum is -0
only when both operands are -0.  (Which NaN payload is delivered is left to
the platform by IEEE-754; the payload chosen here is the one of x86-64 SSE.) -/
def f32_add (a b : F32) : F32 :=
  if a.isNaN then a.quiet
  else if b.isNaN then b.quiet
  else if a.isInf then (if b.isInf ∧ a.sign ≠ b.sign then F32.defaultNaN else a)
  else if b.isInf then b
  else
    let s := a.toInt + b.toInt
    if s = 0 then (if a.sign = 1 ∧ b.sign = 1 then F32.ofNat 2147483648 else F32.ofNat 0)
    else F32.ofNat ((if s < 0 then 2147483648 else 0) + roundNearestEven s.natAbs)

/-! ## The machine: `int`, buffers, faults -/

/-- Largest value of a C `int` (32 bit). -/
def INT_MAX : Int := 2147483647

/-- Smallest value of a C `int` (32 bit). -/
def INT_MIN : Int := -2147483648

/-- The value fits a C `int`, the type of the parameter `N` and of the counter `i`. -/
def IsInt32 (N : Int) : Prop := INT_MIN ≤ N ∧ N ≤ INT_MAX

instance (N : Int) : Decidable (IsInt32 N) := by unfold IsInt32; exact inferInstance

/-- Ways in which a run does not complete: an element access outside its
buffer and a signed overflow of `i++` are undefined behaviour in C; `outOfFuel`
is the step budget of the embedding running out (non-termination). -/
inductive Fault where
  | outOfBounds
  | signedOverflow
  | outOfFuel
deriving DecidableEq, Repr

/-- One element access of the loop body, with the index used. -/
inductive Access where
  | readA (i : Int)
  | readB (i : Int)
  | writeC (i : Int)
deriving DecidableEq, Repr

/-- What a run has done so far: the contents of the output buffer `C`, the
element accesses in program order, the number of executions of the loop body,
and the values the counter `i` has held. -/
structure Exec where
  C : List F32
  accesses : List Access
  iters : Nat
  counters : List Int
deriving DecidableEq, Repr

/-- The read `buf[i]`. -/
def load (buf : List F32) (i : Int) : Except Fault F32 :=
  if 0 ≤ i then
    match buf[i.toNat]? with
    | some v => .ok v
    | none => .error .outOfBounds
  else .error .outOfBounds

/-- The write `buf[i] = v`. -/
def store (buf : List F32) (i : Int) (v : F32) : Except Fault (List F32) :=
  if 0 ≤ i ∧ i.toNat < buf.length then .ok (buf.set i.toNat v) else .error .outOfBounds

/-- The loop body `C[i] = A[i] + B[i];` (kernel_cpu.cpp line 11). -/
def loopBody (A B : List F32) (i : Int) (s : Exec) : Except Fault Exec :=
  match load A i with
  | .error e => .error e
  | .ok a =>
    match load B i with
    | .error e => .error e
    | .ok b =>
      match store s.C i (f32_add a b) with
      | .error e => .error e
      | .ok C' =>
        .ok { s with C := C',
                     accesses := s.accesses ++ [.readA i, .readB i, .writeC i],
                     iters := s.iters + 1 }

/-- The increment `i++` of an `int`. -/
def incr (i : Int) : Except Fault Int :=
  if i + 1 ≤ INT_MAX then .ok (i + 1) else .error .signedOverflow

/-- The statement `for (...; i < N; i++) { C[i] = A[i] + B[i]; }` from
counter value `i` on (kernel_cpu.cpp lines 9-12): test, body, increment,
repeat; at most `fuel` tests are made. -/
def forLoop (A B : List F32) (N : Int) : Nat → Int → Exec → Except Fault Exec
  | 0, _, _ => .error .outOfFuel
  | fuel + 1, i, s =>
    if i < N then
      match loopBody A B i s with
      | .error e => .error e
      | .ok s' =>
        match incr i with
        | .error e => .error e
        | .ok i' => forLoop A B N fuel i' { s' with counters := s'.counters ++ [i'] }
    else .ok s

/-- State at entry of the function, after `int i = 0`. -/
def Exec.init (C : List F32) : Exec :=
  { C := C, accesses := [], iters := 0, counters := [0] }

/-- The function `cpu_vector_add` with an explicit step budget. -/
def cpu_vector_add_fuel (fuel : Nat) (A B C : List F32) (N : Int) : Except Fault Exec :=
  forLoop A B N fuel 0 (Exec.init C)

/-- The function `cpu_vector_add(A, B, C, N)` (kernel_cpu.cpp lines 6-13).
The budget `max(N,0) + 1` is enough for every run; see
`cpu_vector_add_fuel_eq`: every larger budget gives the same result. -/
def cpu_vector_add (A B C : List F32) (N : Int) : Except Fault Exec :=
  cpu_vector_add_fuel (N.toNat + 1) A B C N

/-- Indices written to `C`, in program order. -/
def Access.writeIndex : Access → Option Int
  | .writeC i => some i
  | _ => none

/-- The sequence of writes to `C` made by a run. -/
def Exec.writes (s : Exec) : List Int := s.accesses.filterMap Access.writeIndex

/-- The access lies inside the buffer it addresses. -/
def Access.inBounds (A B C : List F32) : Access → Prop
  | .readA i => 0 ≤ i ∧ i.toNat < A.length
  | .readB i => 0 ≤ i ∧ i.toNat < B.length
  | .writeC i => 0 ≤ i ∧ i.toNat < C.length

/-! ## Parallel execution (`#pragma omp parallel for`, line 8) -/

/-- The loop bodies for the indices of `sched`, executed one after the other
in that order. -/
def runSchedule (A B : List F32) : List Int → Exec → Except Fault Exec
  | [], s => .ok s
  | k :: ks, s =>
    match loopBody A B k s with
    | .error e => .error e
    | .ok s' => runSchedule A B ks s'

/-- Specification side of the refinement: a parallel execution of the loop by
a team of `t` workers.  `events` lists the executed loop bodies in the order
in which they take effect, each with the worker that ran it. -/
def cpu_vector_add_parallel {t : Nat} (A B C : List F32) (events : List (Fin t × Int)) :
    Except Fault Exec :=
  runSchedule A B (events.map Prod.snd) (Exec.init C)

/-- Specification side of the refinement: `events` is an execution of the
iterations `[0, N)` under the assignment `owner` of indices to workers: every
body is run by the worker owning its index (`owner` is a function, so an index
belongs to exactly one worker), and the executed indices are the indices
`0, ..., N-1`, each once, in any order. -/
def ValidTeamRun {t : Nat} (N : Int) (owner : Int → Fin t) (events : List (Fin t × Int)) :
    Prop :=
  (∀ e ∈ events, owner e.2 = e.1) ∧
    (events.map Prod.snd).Perm ((List.range N.toNat).map Int.ofNat)

instance {t : Nat} (N : Int) (owner : Int → Fin t) (events : List (Fin t × Int)) :
    Decidable (ValidTeamRun N owner events) := by
  unfold ValidTeamRun; exact inferInstance

/-! ## Auxiliary definitions for the statements of the lemmas -/

/-- The value the loop body stores at index `k`. -/
def sumAt (A B : List F32) (k : Nat) : F32 :=
  f32_add (A.getD k (F32.ofNat 0)) (B.getD k (F32.ofNat 0))

/-- All three accesses of the loop body at index `i` are inside their buffers. -/
def InBounds (A B C : List F32) (i : Int) : Prop :=
  0 ≤ i ∧ i.toNat < A.length ∧ i.toNat < B.length ∧ i.toNat < C.length

instance (A B C : List F32) (i : Int) : Decidable (InBounds A B C i) := by
  unfold InBounds; exact inferInstance

/-- Accesses of `n` consecutive loop bodies starting at index `i`. -/
def accessesFrom (i : Int) : Nat → List Access
  | 0 => []
  | n + 1 => [.readA i, .readB i, .writeC i] ++ accessesFrom (i + 1) n

/-- Counter values after each of `n` consecutive increments starting from `i`. -/
def countersFrom (i : Int) : Nat → List Int
  | 0 => []
  | n + 1 => (i + 1) :: countersFrom (i + 1) n

/-- The integers `i, i+1, ..., i+n-1`. -/
def intRange (i : Int) : Nat → List Int
  | 0 => []
  | n + 1 => i :: intRange (i + 1) n

/-! ## Concrete inputs -/

/-- The floats 1.0, 2.0, 3.0. -/
def sampleA : List F32 := [F32.ofNat 0x3F800000, F32.ofNat 0x40000000, F32.ofNat 0x40400000]

/-- The floats 4.0, 5.0, 6.0. -/
def sampleB : List F32 := [F32.ofNat 0x40800000, F32.ofNat 0x40A00000, F32.ofNat 0x40C00000]

/-- An output buffer of five elements holding 7.0, 7.0, 7.0, 8.0, 9.0. -/
def sampleC : List F32 :=
  [F32.ofNat 0x40E00000, F32.ofNat 0x40E00000, F32.ofNat 0x40E00000,
   F32.ofNat 0x41000000, F32.ofNat 0x41100000]

/-- A quiet NaN, +Infinity, +Infinity. -/
def sampleSpecialA : List F32 := [F32.ofNat 0x7FC00000, F32.posInf, F32.posInf]

/-- The floats 1.0, -Infinity, 2.0. -/
def sampleSpecialB : List F32 := [F32.ofNat 0x3F800000, F32.negInf, F32.ofNat 0x40000000]

/-- Strided assignment of indices to a team of two workers. -/
def sampleOwner (k : Int) : Fin 2 := if k % 2 = 0 then 0 else 1

/-- An execution of the iterations 0, 1, 2 by the team of `sampleOwner`, out of
index order. -/
def sampleEvents : List (Fin 2 × Int) := [(1, 1), (0, 2), (0, 0)]

/-! ## Lemmas -/

/-- The loop body succeeds exactly when its three accesses are in bounds, and then
stores `sumAt A B i` at index `i`. -/
theorem loopBody_eq (A B : List F32) (i : Int) (s : Exec) :
    loopBody A B i s =
      if InBounds A B s.C i then
        .ok { s with C := s.C.set i.toNat (sumAt A B i.toNat),
                     accesses := s.accesses ++ [.readA i, .readB i, .writeC i],
                     iters := s.iters + 1 }
      else .error .outOfBounds := by
  unfold loopBody load store InBounds sumAt
  by_cases h0 : 0 ≤ i
  · by_cases hA : i.toNat < A.length
    · by_cases hB : i.toNat < B.length
      · by_cases hC : i.toNat < s.C.length
        · simp [h0, hA, hB, hC, List.getElem?_eq_getElem, List.getD_eq_getElem?_getD]
        · simp [h0, hA, hB, hC, List.getElem?_eq_getElem]
      · simp [h0, hA, hB, List.getElem?_eq_getElem, List.getElem?_eq_none (Nat.le_of_not_lt hB)]
    · simp [h0, hA, List.getElem?_eq_none (Nat.le_of_not_lt hA)]
  · simp [h0]

/-- With buffers of at least `N` elements and enough fuel the loop from counter `i`
returns; the final state is described field by field. -/
theorem forLoop_ok (A B : List F32) (N : Int) (hN : N ≤ INT_MAX) :
    ∀ (fuel : Nat) (i : Int) (s : Exec), 0 ≤ i → (N - i).toNat < fuel →
      N.toNat ≤ A.length → N.toNat ≤ B.length → N.toNat ≤ s.C.length →
      ∃ s', forLoop A B N fuel i s = .ok s' ∧ s'.C.length = s.C.length ∧
        (∀ j : Nat, s'.C[j]? =
          if i ≤ (j : Int) ∧ (j : Int) < N then some (sumAt A B j) else s.C[j]?) ∧
        s'.iters = s.iters + (N - i).toNat ∧
        s'.accesses = s.accesses ++ accessesFrom i (N - i).toNat ∧
        s'.counters = s.counters ++ countersFrom i (N - i).toNat := by
  intro fuel
  induction fuel with
  | zero => intro i s _ hf; omega
  | succ fuel ih =>
    intro i s hi hf hA hB hC
    unfold forLoop
    by_cases hlt : i < N
    · have hb : InBounds A B s.C i := by
        unfold InBounds; omega
      have hinc : incr i = .ok (i + 1) := by
        unfold incr; unfold INT_MAX at hN ⊢
        rw [if_pos (by omega)]
      rw [if_pos hlt, loopBody_eq, if_pos hb]
      simp only [hinc]
      obtain ⟨s', hrun, hlen, hget, hit, hacc, hcnt⟩ :=
        ih (i + 1)
          { C := s.C.set i.toNat (sumAt A B i.toNat),
            accesses := s.accesses ++ [.readA i, .readB i, .writeC i],
            iters := s.iters + 1,
            counters := s.counters ++ [i + 1] }
          (by omega) (by omega) hA hB (by simpa using hC)
      have hstep : (N - i).toNat = (N - (i + 1)).toNat + 1 := by omega
      refine ⟨s', hrun, by simpa using hlen, ?_, ?_, ?_, ?_⟩
      · intro j
        rw [hget j]
        simp only [List.getElem?_set]
        by_cases hj : i.toNat = j
        · have h1 : i.toNat < s.C.length := hb.2.2.2
          have h2 : ¬ (i + 1 ≤ (j : Int) ∧ (j : Int) < N) := by omega
          have h3 : i ≤ (j : Int) ∧ (j : Int) < N := by omega
          rw [if_neg h2, if_pos h3, if_pos hj, if_pos h1, hj]
        · by_cases hj2 : i ≤ (j : Int) ∧ (j : Int) < N
          · have h2 : i + 1 ≤ (j : Int) ∧ (j : Int) < N := by omega
            rw [if_pos h2, if_pos hj2]
          · have h2 : ¬ (i + 1 ≤ (j : Int) ∧ (j : Int) < N) := by omega
            rw [if_neg h2, if_neg hj2, if_neg hj]
      · rw [hit, hstep]; simp only []; omega
      · rw [hacc, hstep]; simp [accessesFrom]
      · rw [hcnt, hstep]; simp [countersFrom]
    · have h0 : (N - i).toNat = 0 := by omega
      rw [if_neg hlt, h0]
      refine ⟨s, rfl, rfl, ?_, by simp, by simp [accessesFrom], by simp [countersFrom]⟩
      intro j
      have h2 : ¬ (i ≤ (j : Int) ∧ (j : Int) < N) := by omega
      rw [if_neg h2]

theorem F32.ofNat_val (n : Nat) : (F32.ofNat n).bits.val = n % 4294967296 := rfl

/-- Quieting yields a NaN. -/
theorem F32.quiet_isNaN (x : F32) : x.quiet.isNaN := by
  have hx := x.bits.isLt
  unfold F32.isNaN F32.expo F32.frac F32.quiet
  rw [F32.ofNat_val]
  unfold F32.sign F32.frac
  omega

/-- A NaN operand makes the sum a NaN. -/
theorem f32_add_isNaN (a b : F32) (h : a.isNaN ∨ b.isNaN) : (f32_add a b).isNaN := by
  unfold f32_add
  by_cases ha : a.isNaN
  · rw [if_pos ha]; exact F32.quiet_isNaN a
  · have hb : b.isNaN := h.resolve_left ha
    rw [if_neg ha, if_pos hb]; exact F32.quiet_isNaN b

/-- The sum of +Infinity and -Infinity is a NaN. -/
theorem f32_add_posInf_negInf : (f32_add F32.posInf F32.negInf).isNaN := by decide

/-- The sum of +Infinity and a finite number is +Infinity. -/
theorem f32_add_posInf_finite (b : F32) (hb : b.isFinite) :
    f32_add F32.posInf b = F32.posInf := by
  have h1 : ¬ F32.posInf.isNaN := by decide
  have h2 : F32.posInf.isInf := by decide
  have h3 : ¬ b.isNaN := by
    unfold F32.isNaN; unfold F32.isFinite at hb; omega
  have h4 : ¬ b.isInf := by
    unfold F32.isInf; unfold F32.isFinite at hb; omega
  unfold f32_add
  rw [if_neg h1, if_neg h3, if_pos h2, if_neg (fun h => h4 h.1)]

theorem mem_intRange (k : Int) : ∀ (n : Nat) (i : Int), k ∈ intRange i n ↔ i ≤ k ∧ k < i + n := by
  intro n
  induction n with
  | zero => intro i; simp [intRange]
  | succ n ih =>
    intro i
    simp only [intRange, List.mem_cons, ih]
    push_cast
    omega

theorem nodup_intRange : ∀ (n : Nat) (i : Int), (intRange i n).Nodup := by
  intro n
  induction n with
  | zero => intro i; simp [intRange]
  | succ n ih =>
    intro i
    simp only [intRange, List.nodup_cons, mem_intRange]
    exact ⟨by omega, ih (i + 1)⟩

theorem length_intRange : ∀ (n : Nat) (i : Int), (intRange i n).length = n := by
  intro n
  induction n with
  | zero => intro i; rfl
  | succ n ih => intro i; simp [intRange, ih]

theorem writes_accessesFrom : ∀ (n : Nat) (i : Int),
    (accessesFrom i n).filterMap Access.writeIndex = intRange i n := by
  intro n
  induction n with
  | zero => intro i; rfl
  | succ n ih =>
    intro i
    simp [accessesFrom, intRange, Access.writeIndex, List.filterMap_cons, ih]

theorem mem_accessesFrom (a : Access) : ∀ (n : Nat) (i : Int), a ∈ accessesFrom i n →
    ∃ k : Int, i ≤ k ∧ k < i + n ∧ (a = .readA k ∨ a = .readB k ∨ a = .writeC k) := by
  intro n
  induction n with
  | zero => intro i h; simp [accessesFrom] at h
  | succ n ih =>
    intro i h
    simp only [accessesFrom, List.cons_append, List.nil_append, List.mem_cons] at h
    rcases h with h | h | h | h
    · exact ⟨i, by omega, by push_cast; omega, Or.inl h⟩
    · exact ⟨i, by omega, by push_cast; omega, Or.inr (Or.inl h)⟩
    · exact ⟨i, by omega, by push_cast; omega, Or.inr (Or.inr h)⟩
    · obtain ⟨k, h1, h2, h3⟩ := ih (i + 1) h
      exact ⟨k, by omega, by push_cast; omega, h3⟩

theorem mem_countersFrom (c : Int) : ∀ (n : Nat) (i : Int), c ∈ countersFrom i n →
    i < c ∧ c ≤ i + n := by
  intro n
  induction n with
  | zero => intro i h; simp [countersFrom] at h
  | succ n ih =>
    intro i h
    simp only [countersFrom, List.mem_cons] at h
    rcases h with h | h
    · subst h; push_cast; omega
    · have := ih (i + 1) h
      push_cast; omega

theorem forLoop_exit (A B : List F32) (N : Int) (fuel : Nat) (i : Int) (s : Exec)
    (h : ¬ i < N) : forLoop A B N (fuel + 1) i s = .ok s := by
  unfold forLoop; rw [if_neg h]

/-- When some buffer holds fewer than `N` elements, the loop from `i < N` ends in the
out-of-bounds fault. -/
theorem forLoop_oob (A B : List F32) (N : Int) (hN : N ≤ INT_MAX) :
    ∀ (fuel : Nat) (i : Int) (s : Exec), 0 ≤ i → i < N → (N - i).toNat < fuel →
      ¬ (N.toNat ≤ A.length ∧ N.toNat ≤ B.length ∧ N.toNat ≤ s.C.length) →
      forLoop A B N fuel i s = .error .outOfBounds := by
  intro fuel
  induction fuel with
  | zero => intro i s _ _ hf; omega
  | succ fuel ih =>
    intro i s hi hlt hf hbad
    unfold forLoop
    rw [if_pos hlt, loopBody_eq]
    by_cases hb : InBounds A B s.C i
    · have hinc : incr i = .ok (i + 1) := by
        unfold incr; unfold INT_MAX at hN ⊢
        rw [if_pos (by omega)]
      rw [if_pos hb]
      simp only [hinc]
      unfold InBounds at hb
      exact ih (i + 1) _ (by omega) (by omega) (by omega) (by simpa using hbad)
    · rw [if_neg hb]

theorem forLoop_succ (A B : List F32) (N : Int) (fuel : Nat) (i : Int) (s : Exec) :
    forLoop A B N (fuel + 1) i s =
      if i < N then
        match loopBody A B i s with
        | .error e => .error e
        | .ok s' =>
          match incr i with
          | .error e => .error e
          | .ok i' => forLoop A B N fuel i' { s' with counters := s'.counters ++ [i'] }
      else .ok s := rfl

/-- A run that did not exhaust its fuel is unchanged by one more unit of fuel. -/
theorem forLoop_fuel_succ (A B : List F32) (N : Int) :
    ∀ (fuel : Nat) (i : Int) (s : Exec), forLoop A B N fuel i s ≠ .error .outOfFuel →
      forLoop A B N (fuel + 1) i s = forLoop A B N fuel i s := by
  intro fuel
  induction fuel with
  | zero => intro i s h; exact absurd rfl h
  | succ fuel ih =>
    intro i s h
    rw [forLoop_succ A B N (fuel + 1), forLoop_succ A B N fuel]
    rw [forLoop_succ A B N fuel] at h
    by_cases hlt : i < N
    · rw [if_pos hlt] at h
      rw [if_pos hlt, if_pos hlt]
      cases hbody : loopBody A B i s with
      | error e => rfl
      | ok s' =>
        rw [hbody] at h
        cases hinc : incr i with
        | error e => rfl
        | ok i' =>
          rw [hinc] at h
          exact ih i' _ h
    · rw [if_neg hlt, if_neg hlt]

/-- A run that did not exhaust its fuel is unchanged by any amount of extra fuel. -/
theorem forLoop_fuel_mono (A B : List F32) (N : Int) (fuel : Nat) (i : Int) (s : Exec)
    (h : forLoop A B N fuel i s ≠ .error .outOfFuel) :
    ∀ k : Nat, forLoop A B N (fuel + k) i s = forLoop A B N fuel i s := by
  intro k
  induction k with
  | zero => rfl
  | succ k ih =>
    rw [← Nat.add_assoc, forLoop_fuel_succ A B N (fuel + k) i s (by rw [ih]; exact h), ih]

/-- Executing the bodies of a schedule whose indices are all in bounds returns; an
index of the schedule holds its sum afterwards, every other element is kept. -/
theorem runSchedule_ok (A B : List F32) : ∀ (sched : List Int) (s : Exec),
    (∀ k ∈ sched, InBounds A B s.C k) →
    ∃ s', runSchedule A B sched s = .ok s' ∧ s'.C.length = s.C.length ∧
      ∀ j : Nat, s'.C[j]? = if (j : Int) ∈ sched then some (sumAt A B j) else s.C[j]? := by
  intro sched
  induction sched with
  | nil => intro s _; exact ⟨s, rfl, rfl, by simp⟩
  | cons k ks ih =>
    intro s hall
    have hk : InBounds A B s.C k := hall k (List.mem_cons_self k ks)
    unfold runSchedule
    rw [loopBody_eq, if_pos hk]
    obtain ⟨s', hrun, hlen, hget⟩ := ih
      { s with C := s.C.set k.toNat (sumAt A B k.toNat),
               accesses := s.accesses ++ [.readA k, .readB k, .writeC k],
               iters := s.iters + 1 }
      (by
        intro k' hk'
        have := hall k' (List.mem_cons_of_mem k hk')
        unfold InBounds at this ⊢
        simpa using this)
    refine ⟨s', hrun, by simpa using hlen, ?_⟩
    intro j
    rw [hget j]
    unfold InBounds at hk
    simp only [List.getElem?_set, List.mem_cons]
    by_cases hj : (j : Int) ∈ ks
    · simp [hj]
    · by_cases hjk : (j : Int) = k
      · have h1 : k.toNat = j := by omega
        have h2 : k.toNat < s.C.length := hk.2.2.2
        simp [hj, hjk, h1, h2]
        subst hjk
        simp at h1 h2 ⊢
        omega
      · have h1 : ¬ k.toNat = j := by omega
        simp [hj, hjk, h1]

/-- A schedule containing an index that is out of bounds ends in the out-of-bounds
fault. -/
theorem runSchedule_oob (A B : List F32) : ∀ (sched : List Int) (s : Exec),
    (∃ k ∈ sched, ¬ InBounds A B s.C k) →
    runSchedule A B sched s = .error .outOfBounds := by
  intro sched
  induction sched with
  | nil => intro s h; obtain ⟨k, hk, _⟩ := h; simp at hk
  | cons k ks ih =>
    intro s h
    unfold runSchedule
    rw [loopBody_eq]
    by_cases hk : InBounds A B s.C k
    · rw [if_pos hk]
      apply ih
      obtain ⟨k', hk', hbad⟩ := h
      rcases List.mem_cons.mp hk' with h1 | h1
      · exact absurd (h1 ▸ hk) hbad
      · refine ⟨k', h1, ?_⟩
        unfold InBounds at hbad ⊢
        simpa using hbad
    · rw [if_neg hk]

/-- The call with buffers of at least `N` elements: it returns, and the final state
is described field by field. -/
theorem cpu_vector_add_ok (A B C : List F32) (N : Int) (hN : N ≤ INT_MAX)
    (hA : N.toNat ≤ A.length) (hB : N.toNat ≤ B.length) (hC : N.toNat ≤ C.length) :
    ∃ r, cpu_vector_add A B C N = .ok r ∧ r.C.length = C.length ∧
      (∀ j : Nat, r.C[j]? = if (j : Int) < N then some (sumAt A B j) else C[j]?) ∧
      r.iters = N.toNat ∧
      r.accesses = accessesFrom 0 N.toNat ∧
      r.counters = 0 :: countersFrom 0 N.toNat := by
  obtain ⟨r, hrun, hlen, hget, hit, hacc, hcnt⟩ :=
    forLoop_ok A B N hN (N.toNat + 1) 0 (Exec.init C) (le_refl 0) (by omega) hA hB hC
  refine ⟨r, hrun, hlen, ?_, ?_, ?_, ?_⟩
  · intro j
    rw [hget j]
    have h0 : (0 : Int) ≤ (j : Int) := Int.ofNat_nonneg j
    simp [h0, Exec.init]
  · simpa [Exec.init] using hit
  · simpa [Exec.init] using hacc
  · simpa [Exec.init] using hcnt

/-- The call with a buffer of fewer than `N` elements ends in the out-of-bounds
fault. -/
theorem cpu_vector_add_oob (A B C : List F32) (N : Int) (hN : N ≤ INT_MAX)
    (hbad : ¬ (N.toNat ≤ A.length ∧ N.toNat ≤ B.length ∧ N.toNat ≤ C.length)) :
    cpu_vector_add A B C N = .error .outOfBounds :=
  forLoop_oob A B N hN (N.toNat + 1) 0 (Exec.init C) (le_refl 0) (by omega) (by omega) hbad

/-- The call never exhausts its fuel and never overflows the counter. -/
theorem cpu_vector_add_terminates (A B C : List F32) (N : Int) (hN : N ≤ INT_MAX) :
    cpu_vector_add A B C N ≠ .error .outOfFuel ∧
      cpu_vector_add A B C N ≠ .error .signedOverflow := by
  by_cases h : N.toNat ≤ A.length ∧ N.toNat ≤ B.length ∧ N.toNat ≤ C.length
  · obtain ⟨r, hrun, _⟩ := cpu_vector_add_ok A B C N hN h.1 h.2.1 h.2.2
    rw [hrun]
    exact ⟨fun h => (by cases h), fun h => (by cases h)⟩
  · rw [cpu_vector_add_oob A B C N hN h]
    exact ⟨fun h => (by cases h), fun h => (by cases h)⟩

/-- Every step budget above `max(N, 0)` gives the result of `cpu_vector_add`. -/
theorem cpu_vector_add_fuel_eq (A B C : List F32) (N : Int) (hN : N ≤ INT_MAX)
    (fuel : Nat) (hf : N.toNat < fuel) :
    cpu_vector_add_fuel fuel A B C N = cpu_vector_add A B C N := by
  have h := forLoop_fuel_mono A B N (N.toNat + 1) 0 (Exec.init C)
    (cpu_vector_add_terminates A B C N hN).1 (fuel - (N.toNat + 1))
  have hfuel : N.toNat + 1 + (fuel - (N.toNat + 1)) = fuel := by omega
  rw [hfuel] at h
  exact h

theorem mem_rangeInt (N k : Int) :
    k ∈ (List.range N.toNat).map Int.ofNat ↔ 0 ≤ k ∧ k < N := by
  simp only [List.mem_map, List.mem_range]
  constructor
  · rintro ⟨n, hn, rfl⟩
    simp only [Int.ofNat_eq_coe]
    omega
  · rintro ⟨h0, h1⟩
    exact ⟨k.toNat, by omega, by simp only [Int.ofNat_eq_coe]; omega⟩

theorem sumAt_eq (A B : List F32) (j : Nat) (a b : F32)
    (ha : A[j]? = some a) (hb : B[j]? = some b) : sumAt A B j = f32_add a b := by
  unfold sumAt
  rw [List.getD_eq_getElem?_getD, List.getD_eq_getElem?_getD, ha, hb]
  rfl

theorem getElem_some_of_lt (A : List F32) (j : Nat) (h : j < A.length) : ∃ a, A[j]? = some a :=
  ⟨A[j], List.getElem?_eq_getElem h⟩

set_option maxRecDepth 8000 in
/-- In binary32, 1.0 + 4.0 = 5.0. -/
theorem f32_add_one_four :
    f32_add (F32.ofNat 0x3F800000) (F32.ofNat 0x40800000) = F32.ofNat 0x40A00000 := by
  decide

set_option maxRecDepth 8000 in
/-- In binary32, 2.0 + 5.0 = 7.0. -/
theorem f32_add_two_five :
    f32_add (F32.ofNat 0x40000000) (F32.ofNat 0x40A00000) = F32.ofNat 0x40E00000 := by
  decide

set_option maxRecDepth 8000 in
/-- In binary32, 3.0 + 6.0 = 9.0. -/
theorem f32_add_three_six :
    f32_add (F32.ofNat 0x40400000) (F32.ofNat 0x40C00000) = F32.ofNat 0x41100000 := by
  decide

/-! ## The claims -/

/-- C1: for every `int` N and all buffers A, B, C holding at least N elements,
`cpu_vector_add(A, B, C, N)` returns, and afterwards `C[i] = A[i] + B[i]`
(binary32 addition) for every index `0 <= i < N`.  Example: A = [1.0, 2.0, 3.0],
B = [4.0, 5.0, 6.0], N = 3 gives C = [5.0, 7.0, 9.0], whatever the three
elements of C held before. -/
theorem cpu_vector_add_elementwise_sum (A B C : List F32) (N : Int) (hN : IsInt32 N)
    (hA : N.toNat ≤ A.length) (hB : N.toNat ≤ B.length) (hC : N.toNat ≤ C.length) :
    (∃ r, cpu_vector_add A B C N = .ok r ∧
      ∀ i : Nat, (i : Int) < N →
        ∃ a b, A[i]? = some a ∧ B[i]? = some b ∧ r.C[i]? = some (f32_add a b)) ∧
    (∀ c0 c1 c2 : F32,
      Except.map Exec.C (cpu_vector_add sampleA sampleB [c0, c1, c2] 3) =
        .ok [F32.ofNat 0x40A00000, F32.ofNat 0x40E00000, F32.ofNat 0x41100000]) := by
  constructor
  · obtain ⟨r, hrun, _, hget, _⟩ := cpu_vector_add_ok A B C N hN.2 hA hB hC
    refine ⟨r, hrun, ?_⟩
    intro i hi
    obtain ⟨a, ha⟩ := getElem_some_of_lt A i (by omega)
    obtain ⟨b, hb⟩ := getElem_some_of_lt B i (by omega)
    refine ⟨a, b, ha, hb, ?_⟩
    rw [hget i, if_pos hi, sumAt_eq A B i a b ha hb]
  · intro c0 c1 c2
    have e1 := f32_add_one_four
    have e2 := f32_add_two_five
    have e3 := f32_add_three_six
    obtain ⟨r, hrun, hlen, hget, _⟩ := cpu_vector_add_ok sampleA sampleB
      [c0, c1, c2] 3 (by decide) (by simp [sampleA]) (by simp [sampleB]) (by simp)
    rw [hrun]
    show Except.ok r.C = _
    congr 1
    apply List.ext_getElem?
    intro j
    rw [hget j]
    match j with
    | 0 => simp [sumAt, sampleA, sampleB, e1]
    | 1 => simp [sumAt, sampleA, sampleB, e2]
    | 2 => simp [sumAt, sampleA, sampleB, e3]
    | j + 3 =>
      have : ¬ ((j + 3 : Nat) : Int) < 3 := by omega
      simp [this]

/-- Witness for C1 at A = [1.0, 2.0, 3.0], B = [4.0, 5.0, 6.0], a five-element C
and N = 3. -/
theorem cpu_vector_add_elementwise_sum_witness :
    (IsInt32 3 ∧ (3 : Int).toNat ≤ sampleA.length ∧ (3 : Int).toNat ≤ sampleB.length ∧
      (3 : Int).toNat ≤ sampleC.length) ∧
    ((∃ r, cpu_vector_add sampleA sampleB sampleC 3 = .ok r ∧
      ∀ i : Nat, (i : Int) < 3 →
        ∃ a b, sampleA[i]? = some a ∧ sampleB[i]? = some b ∧
          r.C[i]? = some (f32_add a b)) ∧
    (∀ c0 c1 c2 : F32,
      Except.map Exec.C (cpu_vector_add sampleA sampleB [c0, c1, c2] 3) =
        .ok [F32.ofNat 0x40A00000, F32.ofNat 0x40E00000, F32.ofNat 0x41100000])) :=
  ⟨⟨by decide, by decide, by decide, by decide⟩,
    cpu_vector_add_elementwise_sum sampleA sampleB sampleC 3
      (by decide) (by decide) (by decide) (by decide)⟩

/-- C2: for all A, B and C of any lengths, `cpu_vector_add(A, B, C, 0)` returns
without executing the loop body: it makes no write to C and the contents of C
after the call are the contents before the call. -/
theorem cpu_vector_add_zero_noop (A B C : List F32) :
    ∃ r, cpu_vector_add A B C 0 = .ok r ∧ r.C = C ∧ r.writes = [] ∧ r.iters = 0 :=
  ⟨Exec.init C, rfl, rfl, rfl, rfl⟩

/-- C3: the contents of C do not depend on the parallelism.  For every `int` N,
every team size t, every assignment `owner` of the indices to the t workers and
every order `events` in which the loop bodies of the indices `[0, N)` are
executed, each once and by its owner, the parallel execution ends with the same
contents of C as the sequential loop `i = 0, 1, ..., N-1` (and faults exactly
when the sequential loop does); with buffers of at least N elements it
returns. -/
theorem cpu_vector_add_parallel_eq_sequential {t : Nat} (A B C : List F32) (N : Int)
    (owner : Int → Fin t) (events : List (Fin t × Int))
    (hN : IsInt32 N) (hv : ValidTeamRun N owner events) :
    Except.map Exec.C (cpu_vector_add_parallel A B C events) =
        Except.map Exec.C (cpu_vector_add A B C N) ∧
      (N.toNat ≤ A.length → N.toNat ≤ B.length → N.toNat ≤ C.length →
        ∃ r, cpu_vector_add_parallel A B C events = .ok r) := by
  have hmem : ∀ k : Int, k ∈ events.map Prod.snd ↔ 0 ≤ k ∧ k < N := fun k =>
    (hv.2.mem_iff).trans (mem_rangeInt N k)
  by_cases h : N.toNat ≤ A.length ∧ N.toNat ≤ B.length ∧ N.toNat ≤ C.length
  · have hall : ∀ k ∈ events.map Prod.snd, InBounds A B (Exec.init C).C k := by
      intro k hk
      have := (hmem k).mp hk
      unfold InBounds Exec.init
      simp only
      omega
    obtain ⟨p, hp, hplen, hpget⟩ := runSchedule_ok A B (events.map Prod.snd) (Exec.init C) hall
    obtain ⟨r, hr, hrlen, hrget, _⟩ := cpu_vector_add_ok A B C N hN.2 h.1 h.2.1 h.2.2
    refine ⟨?_, fun _ _ _ => ⟨p, hp⟩⟩
    unfold cpu_vector_add_parallel
    rw [hp, hr]
    show Except.ok p.C = Except.ok r.C
    congr 1
    apply List.ext_getElem?
    intro j
    rw [hpget j, hrget j]
    have h0 : (0 : Int) ≤ (j : Int) := Int.ofNat_nonneg j
    by_cases hj : (j : Int) < N
    · rw [if_pos ((hmem j).mpr ⟨h0, hj⟩), if_pos hj]
    · rw [if_neg (fun hm => hj ((hmem j).mp hm).2), if_neg hj]
      rfl
  · refine ⟨?_, fun hA hB hC => absurd ⟨hA, hB, hC⟩ h⟩
    have hex : ∃ k ∈ events.map Prod.snd, ¬ InBounds A B (Exec.init C).C k := by
      refine ⟨N - 1, (hmem (N - 1)).mpr (by omega), ?_⟩
      unfold InBounds Exec.init
      simp only
      omega
    unfold cpu_vector_add_parallel
    rw [runSchedule_oob A B _ _ hex, cpu_vector_add_oob A B C N hN.2 h]

/-- Witness for C3: two workers, indices assigned by parity, bodies executed in
the order 1, 2, 0. -/
theorem cpu_vector_add_parallel_eq_sequential_witness :
    (IsInt32 3 ∧ ValidTeamRun 3 sampleOwner sampleEvents) ∧
    (Except.map Exec.C (cpu_vector_add_parallel sampleA sampleB sampleC sampleEvents) =
        Except.map Exec.C (cpu_vector_add sampleA sampleB sampleC 3) ∧
      ((3 : Int).toNat ≤ sampleA.length → (3 : Int).toNat ≤ sampleB.length →
        (3 : Int).toNat ≤ sampleC.length →
        ∃ r, cpu_vector_add_parallel sampleA sampleB sampleC sampleEvents = .ok r)) :=
  ⟨⟨by decide, by decide⟩,
    cpu_vector_add_parallel_eq_sequential sampleA sampleB sampleC 3 sampleOwner sampleEvents
      (by decide) (by decide)⟩

/-- C4: for every `int` N and buffers of at least N elements, the sequence of
writes to C made by one call of `cpu_vector_add(A, B, C, N)` contains every
index of `[0, N)` exactly once and no index outside `[0, N)`; it has max(N, 0)
entries.  The sequence accounts for what happens to the buffer: C keeps its
length, every index in the sequence holds `A[k] + B[k]` after the call
whatever it held before, and every index not in the sequence holds the value
it held before the call. -/
theorem cpu_vector_add_writes_each_index_once (A B C : List F32) (N : Int) (hN : IsInt32 N)
    (hA : N.toNat ≤ A.length) (hB : N.toNat ≤ B.length) (hC : N.toNat ≤ C.length) :
    ∃ r, cpu_vector_add A B C N = .ok r ∧
      (∀ j : Int, 0 ≤ j → j < N → r.writes.count j = 1) ∧
      (∀ j : Int, j ∈ r.writes → 0 ≤ j ∧ j < N) ∧
      r.writes.length = N.toNat ∧
      r.C.length = C.length ∧
      (∀ k : Nat, (k : Int) ∈ r.writes →
        ∃ a b, A[k]? = some a ∧ B[k]? = some b ∧ r.C[k]? = some (f32_add a b)) ∧
      (∀ k : Nat, (k : Int) ∉ r.writes → r.C[k]? = C[k]?) := by
  obtain ⟨r, hrun, hlen, hget, _, hacc, _⟩ := cpu_vector_add_ok A B C N hN.2 hA hB hC
  have hw : r.writes = intRange 0 N.toNat := by
    unfold Exec.writes
    rw [hacc, writes_accessesFrom]
  have hmem : ∀ k : Nat, (k : Int) ∈ r.writes ↔ (k : Int) < N := by
    intro k
    rw [hw, mem_intRange]
    omega
  refine ⟨r, hrun, ?_, ?_, ?_, hlen, ?_, ?_⟩
  · intro j h0 h1
    rw [hw]
    exact List.count_eq_one_of_mem (nodup_intRange _ _) ((mem_intRange j _ _).mpr (by omega))
  · intro j hj
    rw [hw] at hj
    have := (mem_intRange j _ _).mp hj
    omega
  · rw [hw, length_intRange]
  · intro k hk
    have hk2 : (k : Int) < N := (hmem k).mp hk
    obtain ⟨a, ha⟩ := getElem_some_of_lt A k (by omega)
    obtain ⟨b, hb⟩ := getElem_some_of_lt B k (by omega)
    refine ⟨a, b, ha, hb, ?_⟩
    rw [hget k, if_pos hk2, sumAt_eq A B k a b ha hb]
  · intro k hk
    have hk2 : ¬ (k : Int) < N := fun h => hk ((hmem k).mpr h)
    rw [hget k, if_neg hk2]

/-- Witness for C4 at N = 3 with a C of five elements whose first element (7.0)
differs from the sum stored there (5.0). -/
theorem cpu_vector_add_writes_each_index_once_witness :
    (IsInt32 3 ∧ (3 : Int).toNat ≤ sampleA.length ∧ (3 : Int).toNat ≤ sampleB.length ∧
      (3 : Int).toNat ≤ sampleC.length) ∧
    ∃ r, cpu_vector_add sampleA sampleB sampleC 3 = .ok r ∧
      (∀ j : Int, 0 ≤ j → j < 3 → r.writes.count j = 1) ∧
      (∀ j : Int, j ∈ r.writes → 0 ≤ j ∧ j < 3) ∧
      r.writes.length = (3 : Int).toNat ∧
      r.C.length = sampleC.length ∧
      (∀ k : Nat, (k : Int) ∈ r.writes →
        ∃ a b, sampleA[k]? = some a ∧ sampleB[k]? = some b ∧
          r.C[k]? = some (f32_add a b)) ∧
      (∀ k : Nat, (k : Int) ∉ r.writes → r.C[k]? = sampleC[k]?) :=
  ⟨⟨by decide, by decide, by decide, by decide⟩,
    cpu_vector_add_writes_each_index_once sampleA sampleB sampleC 3
      (by decide) (by decide) (by decide) (by decide)⟩

/-- C5: when A, B and C each hold at least N elements, every element access
made by `cpu_vector_add` (the reads `A[i]`, `B[i]` and the write `C[i]`) is in
bounds: the out-of-bounds fault is not reached and the call returns. -/
theorem cpu_vector_add_accesses_in_bounds (A B C : List F32) (N : Int) (hN : IsInt32 N)
    (hA : N.toNat ≤ A.length) (hB : N.toNat ≤ B.length) (hC : N.toNat ≤ C.length) :
    ∃ r, cpu_vector_add A B C N = .ok r ∧ ∀ a ∈ r.accesses, a.inBounds A B C := by
  obtain ⟨r, hrun, _, _, _, hacc, _⟩ := cpu_vector_add_ok A B C N hN.2 hA hB hC
  refine ⟨r, hrun, ?_⟩
  intro a ha
  rw [hacc] at ha
  obtain ⟨k, h0, h1, h | h | h⟩ := mem_accessesFrom a _ _ ha
  · subst h; unfold Access.inBounds; omega
  · subst h; unfold Access.inBounds; omega
  · subst h; unfold Access.inBounds; omega

/-- Witness for C5 at N = 3. -/
theorem cpu_vector_add_accesses_in_bounds_witness :
    (IsInt32 3 ∧ (3 : Int).toNat ≤ sampleA.length ∧ (3 : Int).toNat ≤ sampleB.length ∧
      (3 : Int).toNat ≤ sampleC.length) ∧
    ∃ r, cpu_vector_add sampleA sampleB sampleC 3 = .ok r ∧
      ∀ a ∈ r.accesses, a.inBounds sampleA sampleB sampleC :=
  ⟨⟨by decide, by decide, by decide, by decide⟩,
    cpu_vector_add_accesses_in_bounds sampleA sampleB sampleC 3
      (by decide) (by decide) (by decide) (by decide)⟩

/-- C6: NaN propagation.  For every `int` N, buffers of at least N elements and
every index `0 <= i < N`: if `A[i]` is NaN or `B[i]` is NaN, then after
`cpu_vector_add(A, B, C, N)` the value `C[i]` is NaN. -/
theorem cpu_vector_add_nan_propagates (A B C : List F32) (N : Int) (hN : IsInt32 N)
    (hA : N.toNat ≤ A.length) (hB : N.toNat ≤ B.length) (hC : N.toNat ≤ C.length) :
    ∃ r, cpu_vector_add A B C N = .ok r ∧
      ∀ (i : Nat) (a b : F32), (i : Int) < N → A[i]? = some a → B[i]? = some b →
        a.isNaN ∨ b.isNaN → ∃ c, r.C[i]? = some c ∧ c.isNaN := by
  obtain ⟨r, hrun, _, hget, _⟩ := cpu_vector_add_ok A B C N hN.2 hA hB hC
  refine ⟨r, hrun, ?_⟩
  intro i a b hi ha hb hnan
  refine ⟨f32_add a b, ?_, f32_add_isNaN a b hnan⟩
  rw [hget i, if_pos hi, sumAt_eq A B i a b ha hb]

/-- Witness for C6 at A = [NaN, +Inf, +Inf], B = [1.0, -Inf, 2.0], N = 3. -/
theorem cpu_vector_add_nan_propagates_witness :
    (IsInt32 3 ∧ (3 : Int).toNat ≤ sampleSpecialA.length ∧
      (3 : Int).toNat ≤ sampleSpecialB.length ∧ (3 : Int).toNat ≤ sampleC.length) ∧
    ∃ r, cpu_vector_add sampleSpecialA sampleSpecialB sampleC 3 = .ok r ∧
      ∀ (i : Nat) (a b : F32), (i : Int) < 3 → sampleSpecialA[i]? = some a →
        sampleSpecialB[i]? = some b → a.isNaN ∨ b.isNaN → ∃ c, r.C[i]? = some c ∧ c.isNaN :=
  ⟨⟨by decide, by decide, by decide, by decide⟩,
    cpu_vector_add_nan_propagates sampleSpecialA sampleSpecialB sampleC 3
      (by decide) (by decide) (by decide) (by decide)⟩

/-- C7: infinity handling.  For every index `0 <= i < N`, after
`cpu_vector_add(A, B, C, N)`: if `A[i]` is +Infinity and `B[i]` is -Infinity then
`C[i]` is NaN, and if `A[i]` is +Infinity and `B[i]` is finite then `C[i]` is
+Infinity. -/
theorem cpu_vector_add_infinity (A B C : List F32) (N : Int) (hN : IsInt32 N)
    (hA : N.toNat ≤ A.length) (hB : N.toNat ≤ B.length) (hC : N.toNat ≤ C.length) :
    ∃ r, cpu_vector_add A B C N = .ok r ∧
      ∀ (i : Nat) (b : F32), (i : Int) < N → A[i]? = some F32.posInf → B[i]? = some b →
        (b = F32.negInf → ∃ c, r.C[i]? = some c ∧ c.isNaN) ∧
        (b.isFinite → r.C[i]? = some F32.posInf) := by
  obtain ⟨r, hrun, _, hget, _⟩ := cpu_vector_add_ok A B C N hN.2 hA hB hC
  refine ⟨r, hrun, ?_⟩
  intro i b hi ha hb
  have hc : r.C[i]? = some (f32_add F32.posInf b) := by
    rw [hget i, if_pos hi, sumAt_eq A B i _ b ha hb]
  constructor
  · intro hneg
    subst hneg
    exact ⟨_, hc, f32_add_posInf_negInf⟩
  · intro hfin
    rw [hc, f32_add_posInf_finite b hfin]

/-- Witness for C7 at A = [NaN, +Inf, +Inf], B = [1.0, -Inf, 2.0], N = 3. -/
theorem cpu_vector_add_infinity_witness :
    (IsInt32 3 ∧ (3 : Int).toNat ≤ sampleSpecialA.length ∧
      (3 : Int).toNat ≤ sampleSpecialB.length ∧ (3 : Int).toNat ≤ sampleC.length) ∧
    ∃ r, cpu_vector_add sampleSpecialA sampleSpecialB sampleC 3 = .ok r ∧
      ∀ (i : Nat) (b : F32), (i : Int) < 3 → sampleSpecialA[i]? = some F32.posInf →
        sampleSpecialB[i]? = some b →
        (b = F32.negInf → ∃ c, r.C[i]? = some c ∧ c.isNaN) ∧
        (b.isFinite → r.C[i]? = some F32.posInf) :=
  ⟨⟨by decide, by decide, by decide, by decide⟩,
    cpu_vector_add_infinity sampleSpecialA sampleSpecialB sampleC 3
      (by decide) (by decide) (by decide) (by decide)⟩

/-- C8, as stated, fails for negative N: with N = -1 (and empty buffers) the
call returns, and the counter `i` holds its initial value 0, which exceeds N. -/
theorem cpu_vector_add_counter_exceeds_negative_N :
    IsInt32 (-1) ∧
    ∃ r, cpu_vector_add [] [] [] (-1) = .ok r ∧ r.counters = [0] ∧
      ¬ (∀ c ∈ r.counters, c ≤ (-1 : Int)) :=
  ⟨by decide, Exec.init [], rfl, rfl, by decide⟩

/-- C8, amended: for every 32-bit signed N (N = 2^31 - 1 included) the loop
`for (int i = 0; i < N; i++)` terminates: every step budget above max(N, 0)
gives the same result, which is neither non-termination nor a signed overflow
of `i++`; and with buffers of at least max(N, 0) elements the call returns after
exactly max(N, 0) iterations, the counter `i` never having exceeded max(N, 0)
nor the 32-bit signed range. -/
theorem cpu_vector_add_terminates_without_overflow (A B C : List F32) (N : Int)
    (hN : IsInt32 N) :
    (∀ fuel : Nat, N.toNat < fuel →
        cpu_vector_add_fuel fuel A B C N = cpu_vector_add A B C N) ∧
      cpu_vector_add A B C N ≠ .error .outOfFuel ∧
      cpu_vector_add A B C N ≠ .error .signedOverflow ∧
      (N.toNat ≤ A.length → N.toNat ≤ B.length → N.toNat ≤ C.length →
        ∃ r, cpu_vector_add A B C N = .ok r ∧ (r.iters : Int) = max N 0 ∧
          ∀ c ∈ r.counters, 0 ≤ c ∧ c ≤ max N 0 ∧ c ≤ INT_MAX) := by
  refine ⟨fun fuel hf => cpu_vector_add_fuel_eq A B C N hN.2 fuel hf,
    (cpu_vector_add_terminates A B C N hN.2).1, (cpu_vector_add_terminates A B C N hN.2).2, ?_⟩
  intro hA hB hC
  obtain ⟨r, hrun, _, _, hit, _, hcnt⟩ := cpu_vector_add_ok A B C N hN.2 hA hB hC
  refine ⟨r, hrun, by rw [hit]; omega, ?_⟩
  intro c hc
  rw [hcnt] at hc
  have h2 := hN.2
  unfold INT_MAX at h2 ⊢
  rcases List.mem_cons.mp hc with h | h
  · subst h; omega
  · have := mem_countersFrom c _ _ h
    omega

/-- Witness for amended C8 at N = 3. -/
theorem cpu_vector_add_terminates_without_overflow_witness :
    IsInt32 3 ∧
    ((∀ fuel : Nat, (3 : Int).toNat < fuel →
        cpu_vector_add_fuel fuel sampleA sampleB sampleC 3 =
          cpu_vector_add sampleA sampleB sampleC 3) ∧
      cpu_vector_add sampleA sampleB sampleC 3 ≠ .error .outOfFuel ∧
      cpu_vector_add sampleA sampleB sampleC 3 ≠ .error .signedOverflow ∧
      ((3 : Int).toNat ≤ sampleA.length → (3 : Int).toNat ≤ sampleB.length →
        (3 : Int).toNat ≤ sampleC.length →
        ∃ r, cpu_vector_add sampleA sampleB sampleC 3 = .ok r ∧
          (r.iters : Int) = max 3 0 ∧
          ∀ c ∈ r.counters, 0 ≤ c ∧ c ≤ max 3 0 ∧ c ≤ INT_MAX)) :=
  ⟨by decide, cpu_vector_add_terminates_without_overflow sampleA sampleB sampleC 3 (by decide)⟩

/-- C9: for every `int` N and every C holding more than N elements, a call
`cpu_vector_add(A, B, C, N)` that returns leaves the length of C and every
element `C[j]` with `j >= N` unchanged (only the prefix `[0, N)` is modified);
and the call does return when A and B hold at least N elements. -/
theorem cpu_vector_add_frame (A B C : List F32) (N : Int) (hN : IsInt32 N)
    (hC : N.toNat < C.length) :
    (∀ r, cpu_vector_add A B C N = .ok r →
        r.C.length = C.length ∧ ∀ j : Nat, N ≤ (j : Int) → r.C[j]? = C[j]?) ∧
      (N.toNat ≤ A.length → N.toNat ≤ B.length → ∃ r, cpu_vector_add A B C N = .ok r) := by
  constructor
  · intro r hr
    by_cases h : N.toNat ≤ A.length ∧ N.toNat ≤ B.length ∧ N.toNat ≤ C.length
    · obtain ⟨r', hrun, hlen, hget, _⟩ := cpu_vector_add_ok A B C N hN.2 h.1 h.2.1 h.2.2
      rw [hr] at hrun
      cases hrun
      refine ⟨hlen, ?_⟩
      intro j hj
      rw [hget j, if_neg (by omega)]
    · rw [cpu_vector_add_oob A B C N hN.2 h] at hr
      cases hr
  · intro hA hB
    obtain ⟨r, hrun, _⟩ := cpu_vector_add_ok A B C N hN.2 hA hB (by omega)
    exact ⟨r, hrun⟩

/-- Witness for C9 at N = 3 and a C of five elements. -/
theorem cpu_vector_add_frame_witness :
    (IsInt32 3 ∧ (3 : Int).toNat < sampleC.length) ∧
    ((∀ r, cpu_vector_add sampleA sampleB sampleC 3 = .ok r →
        r.C.length = sampleC.length ∧
          ∀ j : Nat, (3 : Int) ≤ (j : Int) → r.C[j]? = sampleC[j]?) ∧
      ((3 : Int).toNat ≤ sampleA.length → (3 : Int).toNat ≤ sampleB.length →
        ∃ r, cpu_vector_add sampleA sampleB sampleC 3 = .ok r)) :=
  ⟨⟨by decide, by decide⟩,
    cpu_vector_add_frame sampleA sampleB sampleC 3 (by decide) (by decide)⟩

/-- C10: for every negative N and all A, B, C, `cpu_vector_add(A, B, C, N)` is a
no-op: it returns, the loop body is never executed, no element of A, B or C is
read or written, and C is the same before and after the call. -/
theorem cpu_vector_add_negative_noop (A B C : List F32) (N : Int) (hneg : N < 0) :
    ∃ r, cpu_vector_add A B C N = .ok r ∧ r.C = C ∧ r.iters = 0 ∧ r.accesses = [] := by
  refine ⟨Exec.init C, ?_, rfl, rfl, rfl⟩
  have h : N.toNat + 1 = 0 + 1 := by omega
  unfold cpu_vector_add cpu_vector_add_fuel
  rw [h]
  exact forLoop_exit A B N 0 0 (Exec.init C) (by omega)

/-- Witness for C10 at N = -4 with non-empty buffers. -/
theorem cpu_vector_add_negative_noop_witness :
    (-4 : Int) < 0 ∧
    ∃ r, cpu_vector_add sampleA sampleB sampleC (-4) = .ok r ∧ r.C = sampleC ∧
      r.iters = 0 ∧ r.accesses = [] :=
  ⟨by decide, cpu_vector_add_negative_noop sampleA sampleB sampleC (-4) (by decide)⟩

end VecAdd
